import Mathlib

/-!
Verification of the text-chunking and keyword-retrieval pipeline of the
my-research-assistant repository.

The embedding models, faithfully to the JavaScript/TypeScript sources:
  * `chunkText` from `src/scripts/ingest-pdf.js` (paragraph/sentence chunker),
  * the ingestion driver loop of `ingestPDFs` from the same file,
  * `retrieveContext` from `src/utils/rag.ts` (keyword retriever).

JavaScript strings are modelled as lists of characters (`Str`); the regular
expressions used by the sources (`/\n\n+/`, `/[.!?]+/`, `/\s+/`) are modelled
by explicit run-splitting functions with the semantics of
`String.prototype.split` on those patterns.
-/

set_option linter.unusedVariables false
set_option maxRecDepth 100000

namespace ResearchAssistant

/-- A JavaScript string, modelled as its list of characters. -/
abbrev Str := List Char

/-- Helper for writing concrete string inputs. -/
def str (s : String) : Str := s.data

/-- The character class of the JavaScript regular expression `\s`
(ECMA-262 WhiteSpace together with LineTerminator, by code point), which is
also exactly the set of characters removed by `String.prototype.trim`. -/
def jsWhitespace (c : Char) : Bool :=
  c.toNat = 9 || c.toNat = 10 || c.toNat = 11 || c.toNat = 12 || c.toNat = 13 ||
  c.toNat = 32 || c.toNat = 160 || c.toNat = 5760 ||
  (8192 ≤ c.toNat && c.toNat ≤ 8202) ||
  c.toNat = 8232 || c.toNat = 8233 || c.toNat = 8239 || c.toNat = 8287 ||
  c.toNat = 12288 || c.toNat = 65279

/-- JavaScript `String.prototype.trim`: remove leading and trailing `\s`
characters. -/
def jsTrim (l : Str) : Str :=
  ((l.dropWhile jsWhitespace).reverse.dropWhile jsWhitespace).reverse

/-- One character step of the run splitter. State: (completed segments,
current segment, inside-a-separator-run flag). A character matching `p`
closes the current segment once per maximal run and is discarded; any other
character extends the current segment. -/
def splitRunStep (p : Char → Bool) (st : List Str × Str × Bool) (c : Char) :
    List Str × Str × Bool :=
  if p c then
    if st.2.2 then st
    else (st.1 ++ [st.2.1], [], true)
  else
    (st.1, st.2.1 ++ [c], false)

/-- JavaScript `String.prototype.split` against a regular expression that
matches maximal nonempty runs of characters satisfying `p`
(the sources use `/[.!?]+/` and `/\s+/`). -/
def splitOnRuns (p : Char → Bool) (l : Str) : List Str :=
  let st := l.foldl (splitRunStep p) ([], [], false)
  st.1 ++ [st.2.1]

/-- Position of the paragraph splitter inside the input: in the middle of a
paragraph, just after a single newline (which may still belong to the
paragraph), or inside a separator run of two or more newlines. -/
inductive ParaMode
  | normal
  | afterNl
  | sep
deriving DecidableEq

/-- One character step of the paragraph splitter. A lone newline is held
pending: followed by a second newline it starts a separator run closing the
segment; followed by anything else it is flushed into the segment. -/
def paraSplitStep (st : List Str × Str × ParaMode) (c : Char) :
    List Str × Str × ParaMode :=
  match st.2.2, c == '\n' with
  | ParaMode.normal, true => (st.1, st.2.1, ParaMode.afterNl)
  | ParaMode.normal, false => (st.1, st.2.1 ++ [c], ParaMode.normal)
  | ParaMode.afterNl, true => (st.1 ++ [st.2.1], [], ParaMode.sep)
  | ParaMode.afterNl, false => (st.1, st.2.1 ++ ['\n', c], ParaMode.normal)
  | ParaMode.sep, true => (st.1, st.2.1, ParaMode.sep)
  | ParaMode.sep, false => (st.1, st.2.1 ++ [c], ParaMode.normal)

/-- The newline still pending after the scan, by final mode. -/
def paraPending : ParaMode → Str
  | ParaMode.afterNl => ['\n']
  | _ => []

/-- The chunker's paragraph split `text.split(/\n\n+/)`: split on maximal runs
of two or more newline characters (a single newline stays inside a paragraph). -/
def splitParas (l : Str) : List Str :=
  let st := l.foldl paraSplitStep ([], [], ParaMode.normal)
  st.1 ++ [st.2.1 ++ paraPending st.2.2]

/-- The sentence-terminal character class `[.!?]` of the chunker. -/
def sentenceSep (c : Char) : Bool := c == '.' || c == '!' || c == '?'

/-- The chunker's sentence split `paragraph.split(/[.!?]+/)`. -/
def splitSentences (p : Str) : List Str := splitOnRuns sentenceSep p

/-- The retriever's token split `query.split(/\s+/)`. -/
def splitWs (q : Str) : List Str := splitOnRuns jsWhitespace q

/-- JavaScript `String.prototype.toLowerCase`, applied characterwise
(ASCII case mapping; characters outside the ASCII letters are unchanged by
the character map used here). -/
def lowerStr (l : Str) : Str := l.map Char.toLower

/-- Boolean test that the first list is a prefix of the second. -/
def isPrefixL : Str → Str → Bool
  | [], _ => true
  | _ :: _, [] => false
  | a :: xs, b :: ys => a == b && isPrefixL xs ys

/-- JavaScript `haystack.includes(needle)`: substring membership. -/
def strIncludes (hay needle : Str) : Bool :=
  (List.range (hay.length + 1)).any fun i => isPrefixL needle (hay.drop i)

/-- A record of the persisted knowledge base (`KnowledgeBaseItem` in
`src/utils/rag.ts`; the ingestion driver produces records of the same shape,
with the `source` field always present). -/
structure KnowledgeBaseItem where
  id : Str
  source : Option Str
  content : Str
deriving DecidableEq

/-- The retriever's keyword extraction (`src/utils/rag.ts` lines 29-31):
lower-cased query, split on whitespace, keeping tokens of length > 2.
The source computes this inside the document loop, but the expression only
depends on the query, so it is one fixed list per call. -/
def queryKeywords (query : Str) : List Str :=
  (splitWs (lowerStr query)).filter (fun word => 2 < word.length)

/-- The retriever's per-document test (`src/utils/rag.ts` line 34): some
keyword occurs in the lower-cased document content. -/
def hasMatch (query : Str) (doc : KnowledgeBaseItem) : Bool :=
  (queryKeywords query).any (fun keyword => strIncludes (lowerStr doc.content) keyword)

/-- The diagnostic text passed to `console.warn` when the knowledge base is
empty. -/
def emptyKbWarning : Str :=
  str "Knowledge base is empty - please run: node scripts/ingest-pdf.js"

/-- `retrieveContext` from `src/utils/rag.ts`. In the source the knowledge
base is a module-level import; here it is an explicit parameter. The loop over
the knowledge base pushes exactly the documents passing `hasMatch`, i.e. it
builds `knowledgeBase.filter`; `slice(0, 5)` is `take 5`; `join("\n\n")` is
`intercalate`. The returned value is the context string; the `console.warn`
side effect is modelled separately by `retrieveWarnings`. -/
def retrieveContext (knowledgeBase : List KnowledgeBaseItem) (query : Str) : Str :=
  if knowledgeBase.length = 0 then []
  else
    let matchingDocs := knowledgeBase.filter (hasMatch query)
    let topMatches := matchingDocs.take 5
    List.intercalate (str "\n\n") (topMatches.map (fun doc => doc.content))

/-- The `console.warn` diagnostics emitted by one call of `retrieveContext`. -/
def retrieveWarnings (knowledgeBase : List KnowledgeBaseItem) : List Str :=
  if knowledgeBase.length = 0 then [emptyKbWarning] else []

/-- The retriever's selection, named for the statements below: qualifying
documents in knowledge-base order, truncated to the first 5. -/
def selectedDocs (kb : List KnowledgeBaseItem) (query : Str) : List KnowledgeBaseItem :=
  (kb.filter (hasMatch query)).take 5

/-- The paragraph separator `"\n\n"` the chunker appends after a paragraph. -/
def nlnl : Str := ['\n', '\n']

/-- The separator `". "` the chunker appends after a sentence. -/
def dotSp : Str := ['.', ' ']

/-- One iteration of the inner sentence loop of `chunkText`
(`src/scripts/ingest-pdf.js` lines 29-35). State: (chunks so far, current
chunk). If appending the sentence would exceed the maximum and the buffer is
nonempty, the trimmed buffer is flushed; then the sentence plus `". "` is
appended. -/
def sentStep (maxChunkSize : Nat) (st : List Str × Str) (sentence : Str) :
    List Str × Str :=
  let st' := if maxChunkSize < st.2.length + sentence.length ∧ 0 < st.2.length
             then (st.1 ++ [jsTrim st.2], ([] : Str)) else st
  (st'.1, st'.2 ++ sentence ++ dotSp)

/-- One iteration of the paragraph loop of `chunkText`
(`src/scripts/ingest-pdf.js` lines 19-39). If appending the paragraph would
exceed the maximum and the buffer is nonempty, the trimmed buffer is flushed.
An oversized paragraph is then split into sentences and processed by
`sentStep`; otherwise the paragraph plus `"\n\n"` is appended. -/
def paraStep (maxChunkSize : Nat) (st : List Str × Str) (paragraph : Str) :
    List Str × Str :=
  let st' := if maxChunkSize < st.2.length + paragraph.length ∧ 0 < st.2.length
             then (st.1 ++ [jsTrim st.2], ([] : Str)) else st
  if maxChunkSize < paragraph.length then
    (splitSentences paragraph).foldl (sentStep maxChunkSize) st'
  else
    (st'.1, st'.2 ++ paragraph ++ nlnl)

/-- The chunk list built by `chunkText` before the final length filter:
paragraph loop over `text.split(/\n\n+/)` starting from no chunks and an
empty buffer, then a final flush of the buffer when its trimmed form is
nonempty (`src/scripts/ingest-pdf.js` lines 13-44). -/
def chunkTextPre (text : Str) (maxChunkSize : Nat) : List Str :=
  let st := (splitParas text).foldl (paraStep maxChunkSize) ([], [])
  if 0 < (jsTrim st.2).length then st.1 ++ [jsTrim st.2] else st.1

/-- `chunkText` from `src/scripts/ingest-pdf.js`: the pre-filter chunks with
chunks of length ≤ 50 discarded (line 46; pushed chunks are already trimmed,
so the length tested is the trimmed length). -/
def chunkText (text : Str) (maxChunkSize : Nat) : List Str :=
  (chunkTextPre text maxChunkSize).filter (fun chunk => 50 < chunk.length)

/-- One source document seen by the ingestion driver: its file name and
either its extracted text, or `none` when extraction fails and the
`try`/`catch` of `ingestPDFs` logs the error and skips the file. -/
structure PdfDoc where
  name : Str
  text : Option Str
deriving DecidableEq

/-- The decimal string `` `${chunkId}` `` used as a record id. -/
def natId (n : Nat) : Str := (Nat.repr n).data

/-- Pushing one chunk onto the knowledge base in `ingestPDFs`
(`src/scripts/ingest-pdf.js` lines 105-112): the record carries the current
counter as its id and the counter is incremented. -/
def ingestChunkStep (file : Str) (st : List KnowledgeBaseItem × Nat)
    (chunk : Str) : List KnowledgeBaseItem × Nat :=
  (st.1 ++ [⟨natId st.2, some file, chunk⟩], st.2 + 1)

/-- Processing one file in `ingestPDFs` (lines 91-118): a failed extraction
leaves the state unchanged (logged and skipped); a successful one chunks the
text with the default `maxChunkSize = 800` and pushes every chunk. -/
def ingestDocStep (st : List KnowledgeBaseItem × Nat) (doc : PdfDoc) :
    List KnowledgeBaseItem × Nat :=
  match doc.text with
  | none => st
  | some t => (chunkText t 800).foldl (ingestChunkStep doc.name) st

/-- The knowledge base produced by one ingestion run of `ingestPDFs` over a
sequence of documents, with the chunk-id counter starting at 1 (line 88). -/
def ingestPDFs (docs : List PdfDoc) : List KnowledgeBaseItem :=
  (docs.foldl ingestDocStep ([], 1)).1

/-- Modelled from the spec: the optimized retriever of the specification's
note, which "stops scanning as soon as 5 matching chunks are found". The
budget counts the matches still allowed; scanning ends when it reaches 0. -/
def scanUpTo (query : Str) : Nat → List KnowledgeBaseItem → List KnowledgeBaseItem
  | _, [] => []
  | 0, _ :: _ => []
  | budget + 1, doc :: rest =>
    if hasMatch query doc then doc :: scanUpTo query budget rest
    else scanUpTo query (budget + 1) rest

/-- Modelled from the spec: the whole optimized retriever, identical to
`retrieveContext` except that the scan stops at the fifth match. -/
def retrieveContextEarly (knowledgeBase : List KnowledgeBaseItem) (query : Str) : Str :=
  if knowledgeBase.length = 0 then []
  else
    List.intercalate (str "\n\n")
      ((scanUpTo query 5 knowledgeBase).map (fun doc => doc.content))

/-- Characters the chunker may consume or rewrite while splitting: whitespace
(paragraph separators, trimming) and sentence-terminal punctuation. -/
def keepChar (c : Char) : Bool := !(jsWhitespace c || sentenceSep c)

/-- A string with separator whitespace and sentence punctuation removed. -/
def strip (l : Str) : Str := l.filter keepChar

/-- A string with whitespace removed (the reading of "ignoring separator
whitespace, non-blank content" in the specification). -/
def removeWs (l : Str) : Str := l.filter (fun c => !jsWhitespace c)

/-- Invariant of the chunker's running buffer: it is empty, or it is bounded
by `maxChunkSize + 2` and ends in one of the two appended separators, or it
is an oversized sentence of the input followed by the sentence separator. -/
def BufInv (maxChunkSize : Nat) (paras : List Str) (cc : Str) : Prop :=
  cc = [] ∨
  (cc.length ≤ maxChunkSize + 2 ∧
    ((∃ u, cc = u ++ nlnl) ∨ (∃ u, cc = u ++ dotSp))) ∨
  (∃ p ∈ paras, ∃ s ∈ splitSentences p, maxChunkSize < s.length ∧ cc = s ++ dotSp)

/-- Invariant of an emitted pre-filter chunk: it is trimmed, and its length
is at most `maxChunkSize + 1` unless it is the trimmed form of an oversized
sentence of the input followed by the sentence separator. -/
def ChunkInv (maxChunkSize : Nat) (paras : List Str) (c : Str) : Prop :=
  jsTrim c = c ∧
  (c.length ≤ maxChunkSize + 1 ∨
    ∃ p ∈ paras, ∃ s ∈ splitSentences p,
      maxChunkSize < s.length ∧ c = jsTrim (s ++ dotSp))

/-- Combined invariant of the chunker's fold state. -/
def StInv (maxChunkSize : Nat) (paras : List Str) (st : List Str × Str) : Prop :=
  (∀ c ∈ st.1, ChunkInv maxChunkSize paras c) ∧ BufInv maxChunkSize paras st.2

/-! ### Basic character and string lemmas -/

theorem toNat_charOfNat {n : Nat} (h : n < 55296) : (Char.ofNat n).toNat = n := by
  have hv : n.isValidChar := Or.inl h
  simp only [Char.ofNat, hv, dif_pos, Char.ofNatAux, Char.toNat]
  simp [UInt32.toNat]

/-- Lower-casing never moves a character into or out of the whitespace class:
the case map only touches the codes 65-90, sending them to 97-122. -/
theorem jsWhitespace_toLower (c : Char) :
    jsWhitespace (Char.toLower c) = jsWhitespace c := by
  by_cases h : c.toNat ≥ 65 ∧ c.toNat ≤ 90
  · have ht : (Char.toLower c).toNat = c.toNat + 32 := by
      simp only [Char.toLower]
      rw [if_pos h]
      exact toNat_charOfNat (by omega)
    have hl : jsWhitespace (Char.toLower c) = false := by
      simp only [jsWhitespace, ht, Bool.or_eq_false_iff, Bool.and_eq_false_iff,
        decide_eq_false_iff_not]
      omega
    have hr : jsWhitespace c = false := by
      simp only [jsWhitespace, Bool.or_eq_false_iff, Bool.and_eq_false_iff,
        decide_eq_false_iff_not]
      omega
    rw [hl, hr]
  · have : Char.toLower c = c := by
      simp only [Char.toLower]
      rw [if_neg h]
    rw [this]

theorem dropWhile_dropWhile (p : Char → Bool) (l : Str) :
    (l.dropWhile p).dropWhile p = l.dropWhile p := by
  induction l with
  | nil => rfl
  | cons c rest ih =>
    by_cases h : p c
    · simp [List.dropWhile_cons, h, ih]
    · simp [List.dropWhile_cons, h]

/-- A nonempty fixed point of `dropWhile p` starts with a character
failing `p`. -/
theorem dropWhile_fixpoint_head {p : Char → Bool} {hd : Char} {t : Str}
    (h : List.dropWhile p (hd :: t) = hd :: t) : p hd = false := by
  by_contra hp
  have hp' : p hd = true := by revert hp; cases p hd <;> simp
  rw [List.dropWhile_cons, if_pos hp'] at h
  have := (List.dropWhile_suffix (l := t) p).length_le
  have := congrArg List.length h
  simp only [List.length_cons] at this
  omega

/-- A prefix of a fixed point of `dropWhile p` is itself a fixed point. -/
theorem dropWhile_eq_self_of_prefix {p : Char → Bool} {t d : Str}
    (hd : List.dropWhile p d = d) (hpre : t <+: d) :
    List.dropWhile p t = t := by
  cases t with
  | nil => rfl
  | cons h t' =>
    obtain ⟨r, hr⟩ := hpre
    subst hr
    have hh : p h = false := dropWhile_fixpoint_head (t := t' ++ r) hd
    rw [List.dropWhile_cons, if_neg (by simp [hh])]

theorem jsTrim_nil : jsTrim [] = [] := rfl

theorem jsTrim_length_le (l : Str) : (jsTrim l).length ≤ l.length := by
  unfold jsTrim
  have h1 := (List.dropWhile_suffix (l := l) jsWhitespace).length_le
  have h2 := (List.dropWhile_suffix
    (l := (l.dropWhile jsWhitespace).reverse) jsWhitespace).length_le
  simp only [List.length_reverse] at h2 ⊢
  omega

theorem jsTrim_jsTrim (l : Str) : jsTrim (jsTrim l) = jsTrim l := by
  have hd : List.dropWhile jsWhitespace (l.dropWhile jsWhitespace) =
      l.dropWhile jsWhitespace := dropWhile_dropWhile _ _
  have hpre : jsTrim l <+: l.dropWhile jsWhitespace := by
    obtain ⟨u, hu⟩ := List.dropWhile_suffix
      (l := (l.dropWhile jsWhitespace).reverse) jsWhitespace
    refine ⟨u.reverse, ?_⟩
    have hc := congrArg List.reverse hu
    simpa [jsTrim] using hc
  have h1 : List.dropWhile jsWhitespace (jsTrim l) = jsTrim l :=
    dropWhile_eq_self_of_prefix hd hpre
  have h2 : List.dropWhile jsWhitespace (jsTrim l).reverse = (jsTrim l).reverse := by
    have he : (jsTrim l).reverse =
        (l.dropWhile jsWhitespace).reverse.dropWhile jsWhitespace := by
      simp [jsTrim]
    rw [he, dropWhile_dropWhile]
  show ((List.dropWhile jsWhitespace (jsTrim l)).reverse.dropWhile jsWhitespace).reverse
      = jsTrim l
  rw [h1, h2, List.reverse_reverse]

theorem jsTrim_eq_nil_of_all_ws {l : Str} (h : ∀ c ∈ l, jsWhitespace c = true) :
    jsTrim l = [] := by
  have h1 : l.dropWhile jsWhitespace = [] := List.dropWhile_eq_nil_iff.mpr h
  simp [jsTrim, h1]

/-- Appending pure whitespace does not change the trimmed string. -/
theorem jsTrim_append_ws {l t : Str} (h : ∀ c ∈ t, jsWhitespace c = true) :
    jsTrim (l ++ t) = jsTrim l := by
  have hrev : t.reverse.dropWhile jsWhitespace = [] :=
    List.dropWhile_eq_nil_iff.mpr (fun c hc => h c (List.mem_reverse.mp hc))
  by_cases hl : l.dropWhile jsWhitespace = []
  · have hall : ∀ c ∈ l ++ t, jsWhitespace c = true := by
      intro c hc
      rcases List.mem_append.mp hc with h1 | h2
      · exact List.dropWhile_eq_nil_iff.mp hl c h1
      · exact h c h2
    rw [jsTrim_eq_nil_of_all_ws hall, jsTrim_eq_nil_of_all_ws
      (fun c hc => List.dropWhile_eq_nil_iff.mp hl c hc)]
  · have hlt : (l ++ t).dropWhile jsWhitespace = l.dropWhile jsWhitespace ++ t := by
      rw [List.dropWhile_append, if_neg (by simp [hl])]
    show ((((l ++ t).dropWhile jsWhitespace).reverse).dropWhile jsWhitespace).reverse
        = jsTrim l
    rw [hlt, List.reverse_append, List.dropWhile_append, if_pos (by simp [hrev])]
    rfl

theorem filter_dropWhile_eq {f q : Char → Bool} (hq : ∀ c, q c = true → f c = false)
    (l : Str) : (l.dropWhile q).filter f = l.filter f := by
  induction l with
  | nil => rfl
  | cons c rest ih =>
    by_cases h : q c = true
    · rw [List.dropWhile_cons, if_pos h, ih, List.filter_cons,
        if_neg (by simp [hq c h])]
    · rw [List.dropWhile_cons, if_neg h]

/-- Trimming does not change a filter that discards all whitespace. -/
theorem filter_jsTrim_eq {f : Char → Bool}
    (hf : ∀ c, jsWhitespace c = true → f c = false) (l : Str) :
    (jsTrim l).filter f = l.filter f := by
  show ((((l.dropWhile jsWhitespace).reverse).dropWhile jsWhitespace).reverse).filter f
      = l.filter f
  rw [List.filter_reverse, filter_dropWhile_eq hf, List.filter_reverse,
    List.reverse_reverse, filter_dropWhile_eq hf]

theorem isPrefixL_iff {xs ys : Str} : isPrefixL xs ys = true ↔ ∃ t, ys = xs ++ t := by
  induction xs generalizing ys with
  | nil => simp [isPrefixL]
  | cons a xs ih =>
    cases ys with
    | nil => simp [isPrefixL]
    | cons b ys =>
      simp only [isPrefixL, Bool.and_eq_true, beq_iff_eq, ih]
      constructor
      · rintro ⟨rfl, t, rfl⟩
        exact ⟨t, rfl⟩
      · rintro ⟨t, h⟩
        injection h with h1 h2
        exact ⟨h1.symm, t, h2⟩

/-- The substring test agrees with the decomposition of the haystack into a
prefix, the needle, and a suffix. -/
theorem strIncludes_iff {hay nd : Str} :
    strIncludes hay nd = true ↔ ∃ u v, hay = u ++ nd ++ v := by
  unfold strIncludes
  rw [List.any_eq_true]
  constructor
  · rintro ⟨i, hi, hp⟩
    obtain ⟨t, ht⟩ := isPrefixL_iff.mp hp
    refine ⟨hay.take i, t, ?_⟩
    conv_lhs => rw [← List.take_append_drop i hay]
    rw [ht, List.append_assoc]
  · rintro ⟨u, v, rfl⟩
    refine ⟨u.length, ?_, ?_⟩
    · rw [List.mem_range]
      simp only [List.length_append]
      omega
    · rw [List.append_assoc, List.drop_left]
      exact isPrefixL_iff.mpr ⟨v, rfl⟩

/-! ### Splitter lemmas -/

/-- Fold invariant of the run splitter: the characters consumed so far, with
separators removed, are exactly the completed segments plus the current one. -/
theorem splitRun_foldl_flatten (p : Char → Bool) (l : Str) :
    ∀ st : List Str × Str × Bool,
    ((l.foldl (splitRunStep p) st).1).flatten ++ (l.foldl (splitRunStep p) st).2.1
      = st.1.flatten ++ st.2.1 ++ l.filter (fun c => !p c) := by
  induction l with
  | nil => intro st; simp
  | cons c rest ih =>
    intro st
    rw [List.foldl_cons, ih]
    by_cases h : p c = true
    · by_cases hf : st.2.2 = true
      · simp [splitRunStep, h, hf, List.filter_cons]
      · simp [splitRunStep, h, hf, List.filter_cons, List.append_assoc]
    · simp [splitRunStep, h, List.filter_cons, List.append_assoc]

/-- Concatenating the segments of a run split restores the input minus the
separator characters. -/
theorem flatten_splitOnRuns (p : Char → Bool) (l : Str) :
    (splitOnRuns p l).flatten = l.filter (fun c => !p c) := by
  have h := splitRun_foldl_flatten p l ([], [], false)
  simpa [splitOnRuns, List.flatten_append] using h

/-- A filter that also discards all separator characters does not see the
characters dropped by a run split. -/
theorem filter_flatten_splitOnRuns {f q : Char → Bool}
    (hq : ∀ c, q c = true → f c = false) (l : Str) :
    ((splitOnRuns q l).flatten).filter f = l.filter f := by
  rw [flatten_splitOnRuns, List.filter_filter]
  refine List.filter_congr ?_
  intro c hc
  by_cases h : q c = true
  · simp [h, hq c h]
  · simp [h]

/-- Splitting commutes with a character map that preserves the separator
class. -/
theorem splitRun_foldl_map {p : Char → Bool} {f : Char → Char}
    (hq : ∀ c, p (f c) = p c) (l : Str) :
    ∀ st : List Str × Str × Bool,
    (l.map f).foldl (splitRunStep p) (st.1.map (List.map f), st.2.1.map f, st.2.2)
      = ((l.foldl (splitRunStep p) st).1.map (List.map f),
         (l.foldl (splitRunStep p) st).2.1.map f,
         (l.foldl (splitRunStep p) st).2.2) := by
  induction l with
  | nil => intro st; rfl
  | cons c rest ih =>
    intro st
    rw [List.map_cons, List.foldl_cons, List.foldl_cons]
    have hstep : splitRunStep p (st.1.map (List.map f), st.2.1.map f, st.2.2) (f c)
        = (((splitRunStep p st c).1).map (List.map f),
           ((splitRunStep p st c).2.1).map f, (splitRunStep p st c).2.2) := by
      by_cases h : p c = true
      · by_cases hf : st.2.2 = true
        · simp [splitRunStep, hq, h, hf]
        · simp [splitRunStep, hq, h, hf]
      · simp [splitRunStep, hq, h]
    rw [hstep, ih]

theorem splitOnRuns_map {p : Char → Bool} {f : Char → Char}
    (hq : ∀ c, p (f c) = p c) (l : Str) :
    splitOnRuns p (l.map f) = (splitOnRuns p l).map (List.map f) := by
  have h := splitRun_foldl_map hq l ([], [], false)
  simp only [List.map_nil] at h
  simp [splitOnRuns, h]

/-- Lower-casing the query first, as the retriever does, splits it into the
lower-cased tokens of the original query. -/
theorem splitWs_lowerStr (q : Str) :
    splitWs (lowerStr q) = (splitWs q).map lowerStr := by
  have h := splitOnRuns_map (p := jsWhitespace) (f := Char.toLower)
    jsWhitespace_toLower q
  simpa [splitWs, lowerStr] using h

/-- Fold invariant of the paragraph splitter: up to a whitespace-discarding
filter, the characters consumed so far are the completed segments plus the
current one and the pending newline. -/
theorem paraSplit_foldl_filter {f : Char → Bool}
    (hf : ∀ c, jsWhitespace c = true → f c = false) (l : Str) :
    ∀ st : List Str × Str × ParaMode,
    (((l.foldl paraSplitStep st).1).flatten
        ++ ((l.foldl paraSplitStep st).2.1
            ++ paraPending (l.foldl paraSplitStep st).2.2)).filter f
      = (st.1.flatten ++ (st.2.1 ++ paraPending st.2.2)).filter f
        ++ l.filter f := by
  have hnl : f '\n' = false := hf '\n' rfl
  induction l with
  | nil => intro st; simp
  | cons c rest ih =>
    intro st
    rw [List.foldl_cons, ih]
    rcases st with ⟨comp, acc, mode⟩
    by_cases h : c = '\n'
    · subst h
      cases mode <;>
        simp [paraSplitStep, paraPending, List.filter_append, List.filter_cons,
          List.flatten_append, hnl]
    · have hc : (c == '\n') = false := by simpa using h
      cases mode <;>
        simp [paraSplitStep, paraPending, hc, List.filter_append, List.filter_cons,
          List.flatten_append, hnl, List.append_assoc] <;>
        split <;> simp

/-- The paragraph split only discards newline characters, so any filter that
discards whitespace does not see them. -/
theorem filter_flatten_splitParas {f : Char → Bool}
    (hf : ∀ c, jsWhitespace c = true → f c = false) (l : Str) :
    ((splitParas l).flatten).filter f = l.filter f := by
  have h := paraSplit_foldl_filter hf l ([], [], ParaMode.normal)
  simpa [splitParas, paraPending, List.flatten_append] using h

/-! ### Retriever theorems -/

/-- Claim C1: for every query string and every knowledge base,
`retrieveContext` returns the concatenation (joined with a blank line) of the
content of the selected chunks: at most 5, all drawn from the knowledge base
in their original relative order (a sublist), each of whose lower-cased
content contains at least one query keyword (a whitespace token of the
lower-cased query with length > 2) as a substring; when zero chunks qualify
it returns the empty string. -/
theorem retrieveContext_characterization
    (kb : List KnowledgeBaseItem) (query : Str) :
    (selectedDocs kb query).Sublist kb ∧
    (selectedDocs kb query).length ≤ 5 ∧
    (∀ d ∈ selectedDocs kb query, ∃ k ∈ queryKeywords query,
      ∃ u v, lowerStr d.content = u ++ k ++ v) ∧
    retrieveContext kb query = List.intercalate (str "\n\n")
      ((selectedDocs kb query).map (fun d => d.content)) ∧
    ((∀ d ∈ kb, hasMatch query d = false) → retrieveContext kb query = []) := by
  refine ⟨?_, ?_, ?_, ?_, ?_⟩
  · exact (List.take_sublist 5 _).trans (List.filter_sublist kb)
  · rw [selectedDocs, List.length_take]
    exact Nat.min_le_left _ _
  · intro d hd
    have hmem := List.mem_filter.mp (List.mem_of_mem_take hd)
    obtain ⟨k, hk, hinc⟩ := List.any_eq_true.mp hmem.2
    obtain ⟨u, v, huv⟩ := strIncludes_iff.mp hinc
    exact ⟨k, hk, u, v, huv⟩
  · by_cases hkb : kb.length = 0
    · have hnil : kb = [] := List.length_eq_zero.mp hkb
      subst hnil
      simp [retrieveContext, selectedDocs, List.intercalate]
    · rw [retrieveContext, if_neg hkb]
      rfl
  · intro hnone
    by_cases hkb : kb.length = 0
    · rw [retrieveContext, if_pos hkb]
    · rw [retrieveContext, if_neg hkb]
      have hfil : kb.filter (hasMatch query) = [] :=
        List.filter_eq_nil_iff.mpr (fun d hd => by simp [hnone d hd])
      simp [hfil, List.intercalate]

/-- Witness for C1 at a concrete non-matching input. -/
theorem retrieveContext_characterization_witness :
    retrieveContext [⟨str "1", none, str "zzz"⟩] (str "cat") = [] :=
  (retrieveContext_characterization [⟨str "1", none, str "zzz"⟩]
    (str "cat")).2.2.2.2 (by decide)

/-- Claim C5: with an empty knowledge base the retriever returns the empty
string and emits the diagnostic warning; absence of matches always yields
the empty string, never an error (the embedding is a total function with no
exceptional path, matching the source, whose operations on strings and
arrays cannot throw). -/
theorem retrieveContext_empty_kb (query : Str) :
    (retrieveContext [] query = [] ∧ retrieveWarnings [] = [emptyKbWarning]) ∧
    (∀ kb : List KnowledgeBaseItem, List.filter (hasMatch query) kb = [] →
      retrieveContext kb query = []) := by
  refine ⟨⟨rfl, rfl⟩, ?_⟩
  intro kb hfil
  by_cases hkb : kb.length = 0
  · rw [retrieveContext, if_pos hkb]
  · rw [retrieveContext, if_neg hkb]
    simp [hfil, List.intercalate]

/-- Witness for C5 at concrete inputs. -/
theorem retrieveContext_empty_kb_witness :
    retrieveContext [⟨str "1", none, str "zzz"⟩] (str "hello") = [] ∧
    retrieveContext [] (str "hello") = [] :=
  ⟨(retrieveContext_empty_kb (str "hello")).2 [⟨str "1", none, str "zzz"⟩]
    (by decide),
   (retrieveContext_empty_kb (str "hello")).1.1⟩

theorem scanUpTo_eq_take_filter (query : Str) (n : Nat)
    (kb : List KnowledgeBaseItem) :
    scanUpTo query n kb = (kb.filter (hasMatch query)).take n := by
  induction kb generalizing n with
  | nil => cases n <;> rfl
  | cons d rest ih =>
    cases n with
    | zero => simp [scanUpTo]
    | succ k =>
      by_cases h : hasMatch query d = true
      · rw [scanUpTo, if_pos h, List.filter_cons, if_pos h,
          List.take_succ_cons, ih]
      · rw [scanUpTo, if_neg h, ih, List.filter_cons, if_neg h]

/-- Claim C6: the implemented retriever (scan all, then truncate to 5) and
the optimized retriever that stops scanning at the fifth match return the
same output string on every query and knowledge base. -/
theorem retrieveContext_early_equiv (kb : List KnowledgeBaseItem) (query : Str) :
    retrieveContextEarly kb query = retrieveContext kb query := by
  rw [retrieveContextEarly, retrieveContext, scanUpTo_eq_take_filter]

/-- Claim C9: a query whose whitespace-separated tokens all have length ≤ 2
yields the empty string against every knowledge base, because no token
passes the length > 2 keyword filter. -/
theorem retrieveContext_short_tokens (kb : List KnowledgeBaseItem) (query : Str)
    (h : ∀ t ∈ splitWs query, t.length ≤ 2) :
    retrieveContext kb query = [] := by
  have hkw : queryKeywords query = [] := by
    rw [queryKeywords, splitWs_lowerStr]
    refine List.filter_eq_nil_iff.mpr ?_
    intro w hw
    obtain ⟨t, ht, rfl⟩ := List.mem_map.mp hw
    have hlen := h t ht
    simp only [lowerStr, List.length_map, decide_eq_true_eq]
    omega
  have hm : ∀ d, hasMatch query d = false := fun d => by rw [hasMatch, hkw]; rfl
  by_cases hkb : kb.length = 0
  · rw [retrieveContext, if_pos hkb]
  · rw [retrieveContext, if_neg hkb]
    have hfil : kb.filter (hasMatch query) = [] :=
      List.filter_eq_nil_iff.mpr (fun d hd => by simp [hm d])
    simp [hfil, List.intercalate]

/-- Witness for C9: the spec's example query "is it ok" against a non-empty
knowledge base whose content even contains those tokens. -/
theorem retrieveContext_short_tokens_witness :
    retrieveContext [⟨str "1", none, str "it is ok content here"⟩]
      (str "is it ok") = [] :=
  retrieveContext_short_tokens _ _ (by decide)

/-! ### Chunker invariants -/

theorem foldl_preserve {α β : Type*} {P : β → Prop} {Q : α → Prop} {f : β → α → β}
    (hf : ∀ st x, Q x → P st → P (f st x)) :
    ∀ (xs : List α), (∀ x ∈ xs, Q x) → ∀ st : β, P st → P (xs.foldl f st) := by
  intro xs
  induction xs with
  | nil => intro _ st h; exact h
  | cons x rest ih =>
    intro hxs st h
    rw [List.foldl_cons]
    exact ih (fun y hy => hxs y (List.mem_cons_of_mem x hy)) _
      (hf st x (hxs x (List.mem_cons_self x rest)) h)

theorem ws_nlnl : ∀ c ∈ nlnl, jsWhitespace c = true := by decide

/-- A buffer satisfying the buffer invariant trims to a chunk satisfying the
chunk invariant. -/
theorem push_chunkInv {maxChunkSize : Nat} {paras : List Str} {cc : Str}
    (h : BufInv maxChunkSize paras cc) :
    ChunkInv maxChunkSize paras (jsTrim cc) := by
  refine ⟨jsTrim_jsTrim cc, ?_⟩
  rcases h with rfl | ⟨hlen, ⟨u, rfl⟩ | ⟨u, rfl⟩⟩ | ⟨p, hp, s, hs, hbig, rfl⟩
  · left
    simp [jsTrim_nil]
  · left
    have he : jsTrim (u ++ nlnl) = jsTrim u := jsTrim_append_ws ws_nlnl
    have hle := jsTrim_length_le u
    rw [he]
    simp only [List.length_append, nlnl] at hlen
    simp only [List.length_cons] at hlen
    omega
  · left
    have hsplit : u ++ dotSp = (u ++ ['.']) ++ [' '] := by
      simp [dotSp]
    have he : jsTrim (u ++ dotSp) = jsTrim (u ++ ['.']) := by
      rw [hsplit]
      exact jsTrim_append_ws (by decide)
    have hle := jsTrim_length_le (u ++ ['.'])
    rw [he]
    simp only [List.length_append, dotSp, List.length_cons, List.length_nil] at hlen hle ⊢
    omega
  · right
    exact ⟨p, hp, s, hs, hbig, rfl⟩

/-- One sentence step preserves the chunker invariant. -/
theorem sentStep_inv {maxChunkSize : Nat} {paras : List Str}
    {st : List Str × Str} {p s : Str}
    (hp : p ∈ paras) (hs : s ∈ splitSentences p) (hst : StInv maxChunkSize paras st) :
    StInv maxChunkSize paras (sentStep maxChunkSize st s) := by
  obtain ⟨hchunks, hbuf⟩ := hst
  simp only [sentStep]
  have hbufS : ∀ cc : Str, cc = [] ∨ cc.length + s.length ≤ maxChunkSize →
      BufInv maxChunkSize paras (cc ++ s ++ dotSp) := by
    intro cc hcc
    by_cases hbig : maxChunkSize < s.length
    · have hnil : cc = [] := by
        rcases hcc with rfl | hle
        · rfl
        · cases cc with
          | nil => rfl
          | cons a t => exfalso; simp [List.length_cons] at hle; omega
      subst hnil
      right; right
      exact ⟨p, hp, s, hs, hbig, by simp⟩
    · right; left
      constructor
      · rcases hcc with rfl | hle <;>
          simp only [List.length_append, dotSp, List.length_cons, List.length_nil,
            List.nil_append] <;> omega
      · right
        exact ⟨cc ++ s, by simp [List.append_assoc]⟩
  by_cases hcond : maxChunkSize < st.2.length + s.length ∧ 0 < st.2.length
  · rw [if_pos hcond]
    refine ⟨?_, ?_⟩
    · intro c hc
      rcases List.mem_append.mp hc with h1 | h2
      · exact hchunks c h1
      · rw [List.mem_singleton.mp h2]
        exact push_chunkInv hbuf
    · exact hbufS [] (Or.inl rfl)
  · rw [if_neg hcond]
    refine ⟨hchunks, ?_⟩
    rcases not_and_or.mp hcond with h1 | h2
    · exact hbufS st.2 (Or.inr (by omega))
    · have : st.2 = [] := by
        cases h : st.2 with
        | nil => rfl
        | cons a t => exfalso; apply h2; rw [h]; simp
      rw [this]
      exact hbufS [] (Or.inl rfl)

/-- One paragraph step preserves the chunker invariant. -/
theorem paraStep_inv {maxChunkSize : Nat} {paras : List Str}
    {st : List Str × Str} {p : Str}
    (hp : p ∈ paras) (hst : StInv maxChunkSize paras st) :
    StInv maxChunkSize paras (paraStep maxChunkSize st p) := by
  obtain ⟨hchunks, hbuf⟩ := hst
  simp only [paraStep]
  have hbufP : p.length ≤ maxChunkSize → ∀ cc : Str,
      cc = [] ∨ cc.length + p.length ≤ maxChunkSize →
      BufInv maxChunkSize paras (cc ++ p ++ nlnl) := by
    intro hple cc hcc
    right; left
    constructor
    · rcases hcc with rfl | hle <;>
        simp only [List.length_append, nlnl, List.length_cons, List.length_nil,
          List.nil_append] <;> omega
    · left
      exact ⟨cc ++ p, by simp [List.append_assoc]⟩
  by_cases hcond : maxChunkSize < st.2.length + p.length ∧ 0 < st.2.length
  · rw [if_pos hcond]
    have hst' : StInv maxChunkSize paras (st.1 ++ [jsTrim st.2], ([] : Str)) := by
      refine ⟨?_, Or.inl rfl⟩
      intro c hc
      rcases List.mem_append.mp hc with h1 | h2
      · exact hchunks c h1
      · rw [List.mem_singleton.mp h2]
        exact push_chunkInv hbuf
    by_cases hbig : maxChunkSize < p.length
    · rw [if_pos hbig]
      exact foldl_preserve (P := StInv maxChunkSize paras)
        (Q := fun s => s ∈ splitSentences p) (f := sentStep maxChunkSize)
        (fun st s hs h => sentStep_inv hp hs h)
        (splitSentences p) (fun s hs => hs) _ hst'
    · rw [if_neg hbig]
      exact ⟨hst'.1, hbufP (by omega) [] (Or.inl rfl)⟩
  · rw [if_neg hcond]
    by_cases hbig : maxChunkSize < p.length
    · rw [if_pos hbig]
      exact foldl_preserve (P := StInv maxChunkSize paras)
        (Q := fun s => s ∈ splitSentences p) (f := sentStep maxChunkSize)
        (fun st s hs h => sentStep_inv hp hs h)
        (splitSentences p) (fun s hs => hs) _ ⟨hchunks, hbuf⟩
    · rw [if_neg hbig]
      refine ⟨hchunks, ?_⟩
      rcases not_and_or.mp hcond with h1 | h2
      · exact hbufP (by omega) st.2 (Or.inr (by omega))
      · have hnil : st.2 = [] := by
          cases h : st.2 with
          | nil => rfl
          | cons a t => exfalso; apply h2; rw [h]; simp
        rw [hnil]
        exact hbufP (by omega) [] (Or.inl rfl)

/-- Every pre-filter chunk satisfies the chunk invariant. -/
theorem chunkTextPre_inv (text : Str) (maxChunkSize : Nat) :
    ∀ c ∈ chunkTextPre text maxChunkSize,
      ChunkInv maxChunkSize (splitParas text) c := by
  have hfold : StInv maxChunkSize (splitParas text)
      ((splitParas text).foldl (paraStep maxChunkSize) ([], [])) :=
    foldl_preserve (P := StInv maxChunkSize (splitParas text))
      (Q := fun p => p ∈ splitParas text) (f := paraStep maxChunkSize)
      (fun st p hp h => paraStep_inv hp h) (splitParas text)
      (fun p hp => hp) ([], []) ⟨by simp, Or.inl rfl⟩
  intro c hc
  simp only [chunkTextPre] at hc
  split at hc
  · rcases List.mem_append.mp hc with h1 | h2
    · exact hfold.1 c h1
    · rw [List.mem_singleton.mp h2]
      exact push_chunkInv hfold.2
  · exact hfold.1 c hc

/-! ### Chunker claim theorems -/

/-- Claim C2, counterexample: with `maxChunkSize = 10` and input
"ab.cdefgh!!", no sentence of the input exceeds 10 characters, yet a
pre-filter chunk of length 11 is emitted (the sentence splitter re-appends
". " and the trailing flush keeps the '.'), so the claimed bound
"length ≤ maxChunkSize except single oversized sentences" is false. -/
theorem chunk_bound_counterexample :
    0 < 10 ∧
    (∃ c ∈ chunkTextPre (str "ab.cdefgh!!") 10, 10 < c.length) ∧
    (∀ p ∈ splitParas (str "ab.cdefgh!!"), ∀ s ∈ splitSentences p,
      s.length ≤ 10) := by
  decide

/-- Claim C2 as amended: for every input text and positive `maxChunkSize`,
every pre-filter chunk has length at most `maxChunkSize + 1` (the extra
character being the '.' the sentence splitter re-appends), except a chunk
formed from a single sentence exceeding `maxChunkSize`, which is emitted as
that sentence with ". " appended and trimmed, never split further. -/
theorem chunk_length_bound (text : Str) (maxChunkSize : Nat)
    (hpos : 0 < maxChunkSize) :
    ∀ c ∈ chunkTextPre text maxChunkSize,
      c.length ≤ maxChunkSize + 1 ∨
      ∃ p ∈ splitParas text, ∃ s ∈ splitSentences p,
        maxChunkSize < s.length ∧ c = jsTrim (s ++ dotSp) := by
  intro c hc
  exact (chunkTextPre_inv text maxChunkSize c hc).2

/-- Witness for the amended C2 at a concrete input. -/
theorem chunk_length_bound_witness :
    (str "hello").length ≤ 10 + 1 ∨
    ∃ p ∈ splitParas (str "hello"), ∃ s ∈ splitSentences p,
      10 < s.length ∧ str "hello" = jsTrim (s ++ dotSp) :=
  chunk_length_bound (str "hello") 10 (by decide) (str "hello") (by decide)

/-- Claim C10: every chunk emitted by the chunker, both before and after the
50-character filter, is trimmed (equal to its own trim, hence without
leading or trailing whitespace), and every post-filter chunk is non-empty. -/
theorem chunks_trimmed (text : Str) (maxChunkSize : Nat)
    (hpos : 0 < maxChunkSize) :
    (∀ c ∈ chunkTextPre text maxChunkSize, jsTrim c = c) ∧
    (∀ c ∈ chunkText text maxChunkSize, jsTrim c = c ∧ c ≠ []) := by
  constructor
  · intro c hc
    exact (chunkTextPre_inv text maxChunkSize c hc).1
  · intro c hc
    obtain ⟨hpre, hlen⟩ := List.mem_filter.mp hc
    refine ⟨(chunkTextPre_inv text maxChunkSize c hpre).1, ?_⟩
    intro hnil
    rw [hnil] at hlen
    simp at hlen

/-- Witness for C10 at a concrete input producing a surviving chunk. -/
theorem chunks_trimmed_witness :
    jsTrim (List.replicate 60 'a') = List.replicate 60 'a' ∧
    List.replicate 60 'a' ≠ [] :=
  (chunks_trimmed (List.replicate 60 'a') 800 (by decide)).2
    (List.replicate 60 'a') (by decide)

/-- Claim C4: no post-filter chunk has trimmed length ≤ 50, and consequently
every record persisted by an ingestion run has content longer than 50
characters. -/
theorem chunkText_min_length :
    (∀ (text : Str) (maxChunkSize : Nat), ∀ c ∈ chunkText text maxChunkSize,
      50 < (jsTrim c).length) ∧
    (∀ docs : List PdfDoc, ∀ r ∈ ingestPDFs docs, 50 < r.content.length) := by
  have hchunk : ∀ (text : Str) (maxChunkSize : Nat),
      ∀ c ∈ chunkText text maxChunkSize, 50 < (jsTrim c).length := by
    intro text maxChunkSize c hc
    obtain ⟨hpre, hlen⟩ := List.mem_filter.mp hc
    rw [(chunkTextPre_inv text maxChunkSize c hpre).1]
    simpa using hlen
  refine ⟨hchunk, ?_⟩
  intro docs r hr
  have hfold : ∀ r ∈ (docs.foldl ingestDocStep ([], 1)).1, 50 < r.content.length := by
    refine foldl_preserve
      (P := fun st : List KnowledgeBaseItem × Nat =>
        ∀ r ∈ st.1, 50 < r.content.length)
      (Q := fun _ : PdfDoc => True) (f := ingestDocStep)
      ?_ docs (fun _ _ => trivial) ([], 1) (by simp)
    intro st doc _ hst
    rw [ingestDocStep]
    cases hdoc : doc.text with
    | none => exact hst
    | some t =>
      refine foldl_preserve
        (P := fun st : List KnowledgeBaseItem × Nat =>
          ∀ r ∈ st.1, 50 < r.content.length)
        (Q := fun chunk : Str => 50 < chunk.length) (f := ingestChunkStep doc.name)
        ?_ (chunkText t 800) ?_ st hst
      · intro st chunk hchunklen hst r hr
        rcases List.mem_append.mp hr with h1 | h2
        · exact hst r h1
        · rw [List.mem_singleton.mp h2]
          exact hchunklen
      · intro chunk hchunk
        obtain ⟨_, hlen⟩ := List.mem_filter.mp hchunk
        simpa using hlen
  exact hfold r hr

/-- Witness for C4: the chunker keeps a 60-character chunk and its trimmed
length exceeds 50; the corresponding ingested record has content longer
than 50. -/
theorem chunkText_min_length_witness :
    50 < (jsTrim (List.replicate 60 'a')).length ∧
    50 < (KnowledgeBaseItem.mk (str "1") (some (str "a.pdf"))
      (List.replicate 60 'a')).content.length :=
  ⟨chunkText_min_length.1 (List.replicate 60 'a') 800
      (List.replicate 60 'a') (by decide),
   chunkText_min_length.2 [⟨str "a.pdf", some (List.replicate 60 'a')⟩]
      (KnowledgeBaseItem.mk (str "1") (some (str "a.pdf"))
        (List.replicate 60 'a')) (by decide)⟩

/-- Claim C8: on the spec's two-paragraph scenario with `maxChunkSize = 40`,
the chunker flushes "Paragraph one." as its own first pre-filter chunk
before handling the second paragraph, and exactly one chunk survives the
50-character filter. -/
theorem chunk_scenario_two_paragraphs :
    chunkTextPre
        (str "Paragraph one.\n\nParagraph two is a bit longer than usual for this test.")
        40
      = [str "Paragraph one.",
         str "Paragraph two is a bit longer than usual for this test.",
         str "."] ∧
    chunkText
        (str "Paragraph one.\n\nParagraph two is a bit longer than usual for this test.")
        40
      = [str "Paragraph two is a bit longer than usual for this test."] := by
  constructor <;> decide

/-! ### Content preservation (claim C3) -/

theorem ws_not_keep : ∀ c, jsWhitespace c = true → keepChar c = false := by
  intro c h
  simp [keepChar, h]

theorem sent_not_keep : ∀ c, sentenceSep c = true → keepChar c = false := by
  intro c h
  simp [keepChar, h]

theorem strip_append (a b : Str) : strip (a ++ b) = strip a ++ strip b :=
  List.filter_append a b

theorem strip_jsTrim (l : Str) : strip (jsTrim l) = strip l :=
  filter_jsTrim_eq ws_not_keep l

theorem strip_dotSp : strip dotSp = [] := by decide

theorem strip_nlnl : strip nlnl = [] := by decide

/-- One sentence step appends exactly the stripped sentence to the stripped
total content of the state. -/
theorem sentStep_strip (maxChunkSize : Nat) (st : List Str × Str) (s : Str) :
    strip ((sentStep maxChunkSize st s).1.flatten ++ (sentStep maxChunkSize st s).2)
      = strip (st.1.flatten ++ st.2) ++ strip s := by
  simp only [sentStep]
  split
  · simp [strip_append, strip_jsTrim, strip_dotSp, List.flatten_append,
      List.append_assoc]
  · simp [strip_append, strip_dotSp, List.append_assoc]

theorem sentFold_strip (maxChunkSize : Nat) (ss : List Str) :
    ∀ st : List Str × Str,
    strip ((ss.foldl (sentStep maxChunkSize) st).1.flatten
        ++ (ss.foldl (sentStep maxChunkSize) st).2)
      = strip (st.1.flatten ++ st.2) ++ strip ss.flatten := by
  induction ss with
  | nil => intro st; simp [strip]
  | cons s rest ih =>
    intro st
    rw [List.foldl_cons, ih, sentStep_strip]
    simp [strip_append, List.append_assoc]

/-- One paragraph step appends exactly the stripped paragraph to the
stripped total content of the state. -/
theorem paraStep_strip (maxChunkSize : Nat) (st : List Str × Str) (p : Str) :
    strip ((paraStep maxChunkSize st p).1.flatten ++ (paraStep maxChunkSize st p).2)
      = strip (st.1.flatten ++ st.2) ++ strip p := by
  simp only [paraStep]
  have hsent : strip ((splitSentences p).flatten) = strip p :=
    filter_flatten_splitOnRuns sent_not_keep p
  split
  · rw [sentFold_strip, hsent]
    split
    · simp [strip_append, strip_jsTrim, List.flatten_append]
    · rfl
  · split
    · simp [strip_append, strip_jsTrim, strip_nlnl, List.flatten_append,
        List.append_assoc]
    · simp [strip_append, strip_nlnl, List.append_assoc]

theorem paraFold_strip (maxChunkSize : Nat) (ps : List Str) :
    ∀ st : List Str × Str,
    strip ((ps.foldl (paraStep maxChunkSize) st).1.flatten
        ++ (ps.foldl (paraStep maxChunkSize) st).2)
      = strip (st.1.flatten ++ st.2) ++ strip ps.flatten := by
  induction ps with
  | nil => intro st; simp [strip]
  | cons p rest ih =>
    intro st
    rw [List.foldl_cons, ih, paraStep_strip]
    simp [strip_append, List.append_assoc]

/-- Claim C3, counterexample: on input "ab.cdefgh!!" with `maxChunkSize = 10`
the concatenated pre-filter chunks differ from the input even after removing
all whitespace, because the sentence splitter drops the '!' characters and
re-inserts '.' — so concatenation does not reproduce the non-blank content. -/
theorem chunk_concat_counterexample :
    removeWs ((chunkTextPre (str "ab.cdefgh!!") 10).flatten)
      ≠ removeWs (str "ab.cdefgh!!") := by
  decide

/-- Claim C3 as amended: for every input text and every `maxChunkSize`,
concatenating the pre-filter chunks reproduces the original text's content
up to separator whitespace AND sentence-terminal punctuation ('.', '!',
'?'): stripping both classes of characters from the concatenation and from
the input yields the same string, with no other characters dropped or
reordered. -/
theorem chunk_concat_strip (text : Str) (maxChunkSize : Nat) :
    strip ((chunkTextPre text maxChunkSize).flatten) = strip text := by
  have hfold := paraFold_strip maxChunkSize (splitParas text) ([], [])
  have hparas : strip ((splitParas text).flatten) = strip text :=
    filter_flatten_splitParas ws_not_keep text
  simp only [List.flatten_nil, List.nil_append, strip, List.filter_nil] at hfold
  have hparas' : List.filter keepChar ((splitParas text).flatten) = strip text := hparas
  rw [hparas'] at hfold
  simp only [chunkTextPre]
  split
  · rw [List.flatten_append, List.flatten_cons, List.flatten_nil,
      List.append_nil, strip_append, strip_jsTrim, ← strip_append]
    exact hfold
  · rename_i hlen
    have hnil : jsTrim ((splitParas text).foldl (paraStep maxChunkSize) ([], [])).2
        = [] := by
      rcases h : jsTrim ((splitParas text).foldl (paraStep maxChunkSize) ([], [])).2
        with _ | ⟨a, t⟩
      · rfl
      · exfalso
        apply hlen
        rw [h]
        simp
    have hstripcc :
        List.filter keepChar ((splitParas text).foldl (paraStep maxChunkSize) ([], [])).2
          = [] := by
      have h := strip_jsTrim ((splitParas text).foldl (paraStep maxChunkSize) ([], [])).2
      rw [hnil] at h
      exact h.symm
    rw [List.filter_append, hstripcc, List.append_nil] at hfold
    exact hfold

/-! ### Ingestion identifiers (claim C7) -/

/-- Claim C7: within a single ingestion run, even when some documents fail
extraction and are skipped, the ids of the produced records are exactly the
decimal strings "1", "2", ..., "n" in record order — assigned sequentially
from 1, strictly increasing, never reused. -/
theorem ingest_ids_sequential (docs : List PdfDoc) :
    (ingestPDFs docs).map (fun r => r.id)
      = (List.range (ingestPDFs docs).length).map (fun i => natId (i + 1)) := by
  have hP : ∀ st : List KnowledgeBaseItem × Nat,
      (st.2 = st.1.length + 1 ∧
        st.1.map (fun r => r.id)
          = (List.range st.1.length).map (fun i => natId (i + 1))) →
      ∀ doc : PdfDoc, (ingestDocStep st doc).2 = (ingestDocStep st doc).1.length + 1 ∧
        (ingestDocStep st doc).1.map (fun r => r.id)
          = (List.range (ingestDocStep st doc).1.length).map (fun i => natId (i + 1)) := by
    intro st hst doc
    rw [ingestDocStep]
    cases doc.text with
    | none => exact hst
    | some t =>
      refine foldl_preserve
        (P := fun st : List KnowledgeBaseItem × Nat =>
          st.2 = st.1.length + 1 ∧
            st.1.map (fun r => r.id)
              = (List.range st.1.length).map (fun i => natId (i + 1)))
        (Q := fun _ : Str => True) (f := ingestChunkStep doc.name)
        ?_ (chunkText t 800) (fun _ _ => trivial) st hst
      intro st chunk _ hst
      obtain ⟨h1, h2⟩ := hst
      rw [ingestChunkStep]
      constructor
      · simp
        omega
      · simp only [List.map_append, List.length_append, List.map_cons,
          List.map_nil, List.length_cons, List.length_nil, List.nil_append]
        rw [h2, h1, List.range_succ, List.map_append]
        rfl
  have hfold := foldl_preserve
    (P := fun st : List KnowledgeBaseItem × Nat =>
      st.2 = st.1.length + 1 ∧
        st.1.map (fun r => r.id)
          = (List.range st.1.length).map (fun i => natId (i + 1)))
    (Q := fun _ : PdfDoc => True) (f := ingestDocStep)
    (fun st doc _ hst => hP st hst doc) docs (fun _ _ => trivial)
    ([], 1) ⟨rfl, rfl⟩
  exact hfold.2

end ResearchAssistant
